import Mathlib

/-!
# Formal model of the MPI Poisson equation solver

Shallow embedding of `src/pie/core/mpi/solver.cc` (`class MPIEquSolver`).

Modelling conventions:
* C `float` arithmetic is modelled with exact rationals (`ℚ`); the claims
  under study concern which values are read and written, not rounding.
* The flat C arrays `A` (length `4N`), `B`, `X` (length `3N`) are modelled as
  functions `ℕ → Fin 4 → ℕ` and `ℕ → Fin 3 → ℚ`: entry `A[i*4+k]` is `A i k`,
  entry `X[i*3+c]` is `X i c`.
* The distributed execution is deterministic: every worker starts a batch from
  the same broadcast solution vector, runs `min_interval` sequential in-place
  passes over its own contiguous range, and the root then overwrites each
  worker's sub-range with that worker's result and broadcasts the merged
  vector.  A batch is therefore the pure function `batchStep` below.
* `cnt` is a ghost field counting how many times `update_equation` has been
  applied to each variable id; the `X` component mirrors the source exactly.
-/

/-- Solution vector together with a ghost per-variable application counter. -/
structure XC where
  X : ℕ → Fin 3 → ℚ
  cnt : ℕ → ℕ

/-- The equation system owned by the solver: `N`, adjacency `A`, constant
terms `B`, solution `X`, and the error accumulator field `err`. -/
structure Equ where
  N : ℕ
  A : ℕ → Fin 4 → ℕ
  B : ℕ → Fin 3 → ℚ
  X : ℕ → Fin 3 → ℚ
  err : Fin 3 → ℚ

/-- What `step` returns on the root worker: the clamped image, the error
vector, the updated solver state, and the ghost pass counter. -/
structure StepResult where
  img : ℕ → Fin 3 → ℕ
  err : Fin 3 → ℚ
  state : Equ
  passes : ℕ → ℕ

/-- `post_reset`: `offset[0] = 0; offset[i+1] = offset[i] + N / n_proc + (i < N % n_proc)`. -/
def offset (N P : ℕ) : ℕ → ℕ
  | 0 => 0
  | i + 1 => offset N P i + N / P + (if i < N % P then 1 else 0)

/-- `MPIEquSolver::update_equation(i)`: writes the 3 channels of variable `i`
in place as `(B[i] + X[A[i][0]] + X[A[i][1]] + X[A[i][2]] + X[A[i][3]]) / 4`;
each channel reads only that channel, so the three writes do not interfere.
The ghost counter of `i` is incremented. -/
def update_equation (A : ℕ → Fin 4 → ℕ) (B : ℕ → Fin 3 → ℚ) (xc : XC) (i : ℕ) : XC where
  X := fun j c =>
    if j = i then
      (B i c + xc.X (A i 0) c + xc.X (A i 1) c + xc.X (A i 2) c + xc.X (A i 3) c) / 4
    else xc.X j c
  cnt := fun j => if j = i then xc.cnt j + 1 else xc.cnt j

/-- The loop `for (k = lo; k < lo + len; ++k) update_equation(k)`:
one sequential in-place pass over the half-open range `[lo, lo + len)`. -/
def passRange (A : ℕ → Fin 4 → ℕ) (B : ℕ → Fin 3 → ℚ) : ℕ → ℕ → XC → XC
  | _, 0, xc => xc
  | lo, len + 1, xc => passRange A B (lo + 1) len (update_equation A B xc lo)

/-- The inner loop `for (j = 0; j < min_interval; ++j)`: one worker's whole
batch, `m` uncommunicated passes over its own range. -/
def workerLocal (A : ℕ → Fin 4 → ℕ) (B : ℕ → Fin 3 → ℚ) (lo len m : ℕ) (xc : XC) : XC :=
  (passRange A B lo len)^[m] xc

/-- `MPI_Recv` of one worker's sub-range into the root's arrays: entries in
`[lo, lo + len)` come from the sender's state, all others are kept. -/
def writeRange (old new : XC) (lo len : ℕ) : XC where
  X := fun j c => if lo ≤ j ∧ j < lo + len then new.X j c else old.X j c
  cnt := fun j => if lo ≤ j ∧ j < lo + len then new.cnt j else old.cnt j

/-- Reconciliation of workers `0, …, R-1`: every worker computed its batch
from the same synced vector `xc0`, and each sub-range of the merged vector is
taken from its owner's local result. -/
def mergeWorkers (A : ℕ → Fin 4 → ℕ) (B : ℕ → Fin 3 → ℚ) (off : ℕ → ℕ) (m : ℕ)
    (xc0 : XC) : ℕ → XC
  | 0 => xc0
  | R + 1 =>
    writeRange (mergeWorkers A B off m xc0 R)
      (workerLocal A B (off R) (off (R + 1) - off R) m xc0)
      (off R) (off (R + 1) - off R)

/-- One iteration of the outer loop of `step`: every worker runs `m` local
passes over its range, then the ranges are merged and broadcast. -/
def batchStep (N : ℕ) (A : ℕ → Fin 4 → ℕ) (B : ℕ → Fin 3 → ℚ) (P m : ℕ) (xc : XC) : XC :=
  mergeWorkers A B (offset N P) m xc P

/-- The outer loop `for (i = 0; i < iteration; i += min_interval)`, modelled
with explicit fuel so that its non-termination for `min_interval ≤ 0` is
expressible: `none` means the fuel ran out while the guard still held. -/
def stepLoopF (N : ℕ) (A : ℕ → Fin 4 → ℕ) (B : ℕ → Fin 3 → ℚ) (P : ℕ)
    (m it : ℤ) : ℕ → ℤ → XC → Option XC
  | 0, i, xc => if i < it then none else some xc
  | fuel + 1, i, xc =>
    if i < it then
      stepLoopF N A B P m it fuel (i + m) (batchStep N A B P m.toNat xc)
    else some xc

/-- Number of executions of the outer loop body for `min_interval = m ≥ 1`:
`⌈iteration / m⌉`, i.e. `(iteration + m - 1) / m` (0 when `iteration ≤ 0`).
Justified against the loop itself by `stepLoopF_eq_iterate` below. -/
def numBatches (m it : ℤ) : ℕ :=
  if it ≤ 0 then 0 else (it.toNat + m.toNat - 1) / m.toNat

/-- `|4*X[i] - (X[id0] + X[id1] + X[id2] + X[id3]) - B[i]|`, the per-variable
residual stored into `tmp` by `calc_error`. -/
def tmpErr (A : ℕ → Fin 4 → ℕ) (B : ℕ → Fin 3 → ℚ) (X : ℕ → Fin 3 → ℚ)
    (i : ℕ) (c : Fin 3) : ℚ :=
  |4 * X i c - (X (A i 0) c + X (A i 1) c + X (A i 2) c + X (A i 3) c) - B i c|

/-- `MPIEquSolver::calc_error`: `memset(err, 0, …)` then accumulate the
residuals of ids `1, …, N-1` (the loop `for (i = 1; i < N; ++i)`). -/
def calc_error (N : ℕ) (A : ℕ → Fin 4 → ℕ) (B : ℕ → Fin 3 → ℚ)
    (X : ℕ → Fin 3 → ℚ) (c : Fin 3) : ℚ :=
  ((List.range' 1 (N - 1)).map fun i => tmpErr A B X i c).sum

/-- `buf2[i] = X[i] < 0 ? 0 : X[i] > 255 ? 255 : X[i]` — the conversion of a
non-negative value to `unsigned char` truncates toward zero, i.e. floors. -/
def clampChan (x : ℚ) : ℕ :=
  if x < 0 then 0 else if 255 < x then 255 else (Rat.floor x).toNat

/-- Packaging of the root's return value: the clamped copy of `X`, the freshly
recomputed error vector, and the state whose only changed fields are `X` and
`err`. -/
def mkResult (s : Equ) (xc : XC) : StepResult where
  img := fun i c => clampChan (xc.X i c)
  err := fun c => calc_error s.N s.A s.B xc.X c
  state := { s with X := xc.X, err := fun c => calc_error s.N s.A s.B xc.X c }
  passes := xc.cnt

/-- `MPIEquSolver::step(iteration)` on the root worker, via the fuelled outer
loop.  `it.toNat + 1` units of fuel are enough whenever `min_interval ≥ 1`
(see `step_eq_some`); `none` models the diverging loop. -/
def step (P : ℕ) (m it : ℤ) (s : Equ) : Option StepResult :=
  match stepLoopF s.N s.A s.B P m it (it.toNat + 1) 0 ⟨s.X, fun _ => 0⟩ with
  | none => none
  | some xc => some (mkResult s xc)

/-- Closed form of `step` for a positive batch interval: `numBatches m it`
merged batches.  `step_eq_some` proves `step P m it s = some (stepTotal P m it s)`
whenever `1 ≤ m`. -/
def stepTotal (P : ℕ) (m it : ℤ) (s : Equ) : StepResult :=
  mkResult s ((batchStep s.N s.A s.B P m.toNat)^[numBatches m it] ⟨s.X, fun _ => 0⟩)

/-- Number of cells with positive mask value among linear positions
`[p, p + r)` of the row-major mask. -/
def countPos (mask : ℕ → ℤ) : ℕ → ℕ → ℕ
  | _, 0 => 0
  | p, r + 1 => (if 0 < mask p then 1 else 0) + countPos mask (p + 1) r

/-- The body of `MPIEquSolver::partition`: scan linear positions `p, …` for
`r` more cells, carrying the counter `cnt`; a positive cell gets `++cnt`,
any other cell gets `0`. -/
def partitionAux (mask : ℕ → ℤ) : ℕ → ℕ → ℕ → List ℕ
  | _, 0, _ => []
  | p, r + 1, cnt =>
    if 0 < mask p then (cnt + 1) :: partitionAux mask (p + 1) r (cnt + 1)
    else 0 :: partitionAux mask (p + 1) r cnt

/-- `MPIEquSolver::partition` on an `n × m` mask given in row-major order
(`mask (i * m + j) = arr(i, j)`): a fresh buffer of `n * m` labels. -/
def partition (mask : ℕ → ℤ) (n m : ℕ) : List ℕ :=
  partitionAux mask 0 (n * m) 0

/-- Concrete 2-variable system whose anchor row has a non-zero constant term
(`B[0] = 4`), all adjacency entries pointing at the anchor, `X = 0`. -/
def eqAnchor : Equ where
  N := 2
  A := fun _ _ => 0
  B := fun i _ => if i = 0 then 4 else 0
  X := fun _ _ => 0
  err := fun _ => 0

/-- Concrete 3-variable system in which variable 2's four neighbors are all
variable 1, and `B[1] = 4` makes variable 1's value change during a pass. -/
def eqChain : Equ where
  N := 3
  A := fun i _ => if i = 2 then 1 else 0
  B := fun i _ => if i = 1 then 4 else 0
  X := fun _ _ => 0
  err := fun _ => 0

/-- Concrete 2-variable system whose anchor row is a fixed point of the
kernel: `A[0] = (0,0,0,0)` and `B[0] = (0,0,0)`, as the reset step builds. -/
def eqFix : Equ where
  N := 2
  A := fun _ _ => 0
  B := fun i _ => if i = 1 then 8 else 0
  X := fun _ _ => 0
  err := fun _ => 0

/-- Concrete 2-variable system whose solution vector already holds the
out-of-color-range channel value 300 at variable 1. -/
def eqHot : Equ where
  N := 2
  A := fun _ _ => 0
  B := fun _ _ => 0
  X := fun i _ => if i = 1 then 300 else 0
  err := fun _ => 0

/-- Concrete 2×2 row-major mask whose positions 1 and 2 are active. -/
def mask0 : ℕ → ℤ := fun p => if p = 1 ∨ p = 2 then 1 else 0

/-! ## Work partitioner: properties of `offset` -/

theorem offset_succ_sub (N P r : ℕ) :
    offset N P (r + 1) - offset N P r = N / P + (if r < N % P then 1 else 0) := by
  rw [offset]
  generalize offset N P r = a
  generalize N / P = q
  split <;> omega

theorem offset_mono_succ (N P r : ℕ) : offset N P r ≤ offset N P (r + 1) := by
  rw [offset]
  generalize offset N P r = a
  generalize N / P = q
  split <;> omega

theorem offset_closed (N P : ℕ) : ∀ r, offset N P r = r * (N / P) + min r (N % P)
  | 0 => by simp [offset]
  | r + 1 => by
    rw [offset, offset_closed N P r, Nat.succ_mul]
    generalize N / P = q
    generalize N % P = k
    generalize r * q = t
    by_cases h : r < k <;> simp [h] <;> omega

theorem offset_total (N P : ℕ) (hP : 1 ≤ P) : offset N P P = N := by
  have h1 : N % P < P := Nat.mod_lt _ hP
  have h2 : P * (N / P) + N % P = N := Nat.div_add_mod N P
  rw [offset_closed]
  generalize hq : P * (N / P) = t at h2 ⊢
  omega

/-! ## Relaxation kernel: frame and counter lemmas -/

theorem update_X_ne (A : ℕ → Fin 4 → ℕ) (B : ℕ → Fin 3 → ℚ) (xc : XC) (i j : ℕ)
    (c : Fin 3) (h : j ≠ i) : (update_equation A B xc i).X j c = xc.X j c := by
  simp [update_equation, h]

theorem update_cnt (A : ℕ → Fin 4 → ℕ) (B : ℕ → Fin 3 → ℚ) (xc : XC) (i j : ℕ) :
    (update_equation A B xc i).cnt j = xc.cnt j + (if j = i then 1 else 0) := by
  simp only [update_equation]
  split <;> rfl

theorem passRange_X_outside (A : ℕ → Fin 4 → ℕ) (B : ℕ → Fin 3 → ℚ) :
    ∀ (len lo : ℕ) (xc : XC) (j : ℕ) (c : Fin 3), j < lo ∨ lo + len ≤ j →
      (passRange A B lo len xc).X j c = xc.X j c
  | 0, _, _, _, _, _ => rfl
  | len + 1, lo, xc, j, c, h => by
    rw [passRange, passRange_X_outside A B len (lo + 1) _ j c (by omega)]
    exact update_X_ne A B xc lo j c (by omega)

theorem passRange_cnt (A : ℕ → Fin 4 → ℕ) (B : ℕ → Fin 3 → ℚ) :
    ∀ (len lo : ℕ) (xc : XC) (j : ℕ),
      (passRange A B lo len xc).cnt j
        = xc.cnt j + (if lo ≤ j ∧ j < lo + len then 1 else 0)
  | 0, lo, xc, j => by
    rw [passRange]
    split <;> omega
  | len + 1, lo, xc, j => by
    rw [passRange, passRange_cnt A B len (lo + 1) _ j, update_cnt]
    split_ifs <;> omega

/-! ## Anchor (id 0) behaviour -/

theorem update_X_anchor (A : ℕ → Fin 4 → ℕ) (B : ℕ → Fin 3 → ℚ) (xc : XC) (i : ℕ)
    (c : Fin 3) (hA : ∀ k, A 0 k = 0) (hB : ∀ c, B 0 c = 0) :
    (update_equation A B xc i).X 0 c = xc.X 0 c := by
  by_cases h : (0 : ℕ) = i
  · subst h
    simp only [update_equation, hA, hB, if_pos rfl, if_true]
    ring
  · exact update_X_ne A B xc i 0 c h

theorem passRange_X_anchor (A : ℕ → Fin 4 → ℕ) (B : ℕ → Fin 3 → ℚ)
    (hA : ∀ k, A 0 k = 0) (hB : ∀ c, B 0 c = 0) :
    ∀ (len lo : ℕ) (xc : XC) (c : Fin 3), (passRange A B lo len xc).X 0 c = xc.X 0 c
  | 0, _, _, _ => rfl
  | len + 1, lo, xc, c => by
    rw [passRange, passRange_X_anchor A B hA hB len (lo + 1) _ c]
    exact update_X_anchor A B xc lo c hA hB

theorem workerLocal_X_anchor (A : ℕ → Fin 4 → ℕ) (B : ℕ → Fin 3 → ℚ) (lo len : ℕ)
    (hA : ∀ k, A 0 k = 0) (hB : ∀ c, B 0 c = 0) :
    ∀ (m : ℕ) (xc : XC) (c : Fin 3), (workerLocal A B lo len m xc).X 0 c = xc.X 0 c
  | 0, _, _ => rfl
  | m + 1, xc, c => by
    rw [workerLocal, Function.iterate_succ_apply]
    rw [show (passRange A B lo len)^[m] (passRange A B lo len xc)
        = workerLocal A B lo len m (passRange A B lo len xc) from rfl]
    rw [workerLocal_X_anchor A B lo len hA hB m _ c]
    exact passRange_X_anchor A B hA hB len lo xc c

theorem mergeWorkers_X_anchor (A : ℕ → Fin 4 → ℕ) (B : ℕ → Fin 3 → ℚ) (off : ℕ → ℕ)
    (m : ℕ) (xc0 : XC) (hA : ∀ k, A 0 k = 0) (hB : ∀ c, B 0 c = 0) :
    ∀ (R : ℕ) (c : Fin 3), (mergeWorkers A B off m xc0 R).X 0 c = xc0.X 0 c
  | 0, _ => rfl
  | R + 1, c => by
    simp only [mergeWorkers, writeRange]
    split
    · exact workerLocal_X_anchor A B _ _ hA hB m xc0 c
    · exact mergeWorkers_X_anchor A B off m xc0 hA hB R c

theorem batchStep_X_anchor (N : ℕ) (A : ℕ → Fin 4 → ℕ) (B : ℕ → Fin 3 → ℚ)
    (P m : ℕ) (xc : XC) (c : Fin 3) (hA : ∀ k, A 0 k = 0) (hB : ∀ c, B 0 c = 0) :
    (batchStep N A B P m xc).X 0 c = xc.X 0 c :=
  mergeWorkers_X_anchor A B (offset N P) m xc hA hB P c

theorem batchStep_iter_X_anchor (N : ℕ) (A : ℕ → Fin 4 → ℕ) (B : ℕ → Fin 3 → ℚ)
    (P m : ℕ) (hA : ∀ k, A 0 k = 0) (hB : ∀ c, B 0 c = 0) :
    ∀ (n : ℕ) (xc : XC) (c : Fin 3), ((batchStep N A B P m)^[n] xc).X 0 c = xc.X 0 c
  | 0, _, _ => rfl
  | n + 1, xc, c => by
    rw [Function.iterate_succ_apply,
      batchStep_iter_X_anchor N A B P m hA hB n _ c]
    exact batchStep_X_anchor N A B P m xc c hA hB

theorem stepTotal_X_anchor (P : ℕ) (m it : ℤ) (s : Equ) (c : Fin 3)
    (hA : ∀ k, s.A 0 k = 0) (hB : ∀ c, s.B 0 c = 0) :
    (stepTotal P m it s).state.X 0 c = s.X 0 c :=
  batchStep_iter_X_anchor s.N s.A s.B P m.toNat hA hB (numBatches m it) _ c

/-! ## Sequential pass: split, frame and characterization -/

theorem passRange_add (A : ℕ → Fin 4 → ℕ) (B : ℕ → Fin 3 → ℚ) :
    ∀ (a b lo : ℕ) (xc : XC),
      passRange A B lo (a + b) xc = passRange A B (lo + a) b (passRange A B lo a xc)
  | 0, b, lo, xc => by simp [passRange]
  | a + 1, b, lo, xc => by
    rw [show a + 1 + b = (a + b) + 1 from by omega]
    rw [passRange, passRange, passRange_add A B a b (lo + 1) _]
    rw [show lo + 1 + a = lo + (a + 1) from by omega]

/-- Claim C3 (amended): within a single relaxation pass over a worker's range
`[lo, lo + len)`, the update of variable `i` recomputes each channel as
`(B[i] + sum of its 4 neighbors' values) / 4`, where every neighbor value is
read from the in-place vector in which exactly the earlier variables
`lo, …, i-1` of the same pass have already been updated: an in-place
Gauss–Seidel sweep within the worker's range, not a Jacobi update.  Entries
outside the updated area (in particular other workers' ranges) still hold
their values from the last synchronization boundary. -/
theorem passRange_reads (A : ℕ → Fin 4 → ℕ) (B : ℕ → Fin 3 → ℚ)
    (lo len i : ℕ) (xc : XC) (c : Fin 3) (h1 : lo ≤ i) (h2 : i < lo + len) :
    (passRange A B lo len xc).X i c =
      (B i c + (passRange A B lo (i - lo) xc).X (A i 0) c
        + (passRange A B lo (i - lo) xc).X (A i 1) c
        + (passRange A B lo (i - lo) xc).X (A i 2) c
        + (passRange A B lo (i - lo) xc).X (A i 3) c) / 4 := by
  set a := i - lo with ha
  have hia : i = lo + a := by omega
  have hlen : len = a + (len - a - 1 + 1) := by omega
  rw [hlen, passRange_add, passRange,
    passRange_X_outside A B _ (lo + a + 1) _ i c (by omega), hia]
  simp [update_equation]

theorem workerLocal_cnt (A : ℕ → Fin 4 → ℕ) (B : ℕ → Fin 3 → ℚ) (lo len : ℕ) :
    ∀ (m : ℕ) (xc : XC) (j : ℕ),
      (workerLocal A B lo len m xc).cnt j
        = xc.cnt j + m * (if lo ≤ j ∧ j < lo + len then 1 else 0)
  | 0, xc, j => by simp [workerLocal]
  | m + 1, xc, j => by
    rw [workerLocal, Function.iterate_succ_apply,
      show (passRange A B lo len)^[m] (passRange A B lo len xc)
        = workerLocal A B lo len m (passRange A B lo len xc) from rfl,
      workerLocal_cnt A B lo len m _ j, passRange_cnt]
    split_ifs <;> omega

theorem mergeWorkers_cnt (N P mN : ℕ) (A : ℕ → Fin 4 → ℕ) (B : ℕ → Fin 3 → ℚ)
    (xc0 : XC) :
    ∀ (R j : ℕ), j < offset N P R →
      (mergeWorkers A B (offset N P) mN xc0 R).cnt j = xc0.cnt j + mN
  | 0, j, h => absurd h (by simp [offset])
  | R + 1, j, h => by
    have hmono := offset_mono_succ N P R
    simp only [mergeWorkers, writeRange]
    split
    · rename_i hcond
      rw [workerLocal_cnt, if_pos hcond, mul_one]
    · rename_i hcond
      exact mergeWorkers_cnt N P mN A B xc0 R j (by omega)

theorem batchStep_cnt (N : ℕ) (A : ℕ → Fin 4 → ℕ) (B : ℕ → Fin 3 → ℚ)
    (P mN : ℕ) (xc : XC) (j : ℕ) (hP : 1 ≤ P) (hj : j < N) :
    (batchStep N A B P mN xc).cnt j = xc.cnt j + mN := by
  apply mergeWorkers_cnt
  rw [offset_total N P hP]
  exact hj

theorem batchStep_iter_cnt (N : ℕ) (A : ℕ → Fin 4 → ℕ) (B : ℕ → Fin 3 → ℚ)
    (P mN : ℕ) (hP : 1 ≤ P) :
    ∀ (n : ℕ) (xc : XC) (j : ℕ), j < N →
      ((batchStep N A B P mN)^[n] xc).cnt j = xc.cnt j + n * mN
  | 0, xc, j, _ => by simp
  | n + 1, xc, j, hj => by
    rw [Function.iterate_succ_apply,
      batchStep_iter_cnt N A B P mN hP n _ j hj,
      batchStep_cnt N A B P mN xc j hP hj]
    ring

/-! ## The outer loop: batch count and closed form -/

theorem numBatches_eq_zero (m d : ℤ) (hd : d ≤ 0) : numBatches m d = 0 :=
  if_pos hd

theorem numBatches_pos (m d : ℤ) (hm : 1 ≤ m) (hd : 0 < d) : 1 ≤ numBatches m d := by
  rw [numBatches, if_neg (by omega)]
  exact (Nat.one_le_div_iff (by omega)).mpr (by omega)

theorem numBatches_succ (m d : ℤ) (hm : 1 ≤ m) (hd : 0 < d) :
    numBatches m d = numBatches m (d - m) + 1 := by
  have hmN : 1 ≤ m.toNat := by omega
  by_cases h2 : d - m ≤ 0
  · rw [numBatches, if_neg (by omega), numBatches, if_pos h2]
    have h3 : (d.toNat + m.toNat - 1) / m.toNat = 1 :=
      Nat.div_eq_of_lt_le (by omega) (by omega)
    omega
  · push_neg at h2
    rw [numBatches, if_neg (by omega), numBatches, if_neg (by omega)]
    have hsub : (d - m).toNat = d.toNat - m.toNat := by omega
    have h4 : d.toNat + m.toNat - 1 = (d.toNat - m.toNat + m.toNat - 1) + m.toNat := by
      omega
    rw [hsub, h4, Nat.add_div_right _ (by omega)]

theorem numBatches_le_toNat (m it : ℤ) (hm : 1 ≤ m) : numBatches m it ≤ it.toNat := by
  rw [numBatches]
  split
  · omega
  · rename_i h
    have hmN : 1 ≤ m.toNat := by omega
    have hmul : it.toNat ≤ it.toNat * m.toNat := Nat.le_mul_of_pos_right _ (by omega)
    have hlt : it.toNat + m.toNat - 1 < (it.toNat + 1) * m.toNat := by
      have hexp : (it.toNat + 1) * m.toNat = it.toNat * m.toNat + m.toNat := by ring
      omega
    exact Nat.lt_succ_iff.mp ((Nat.div_lt_iff_lt_mul (by omega)).mpr hlt)

theorem stepLoopF_eq_iterate (N : ℕ) (A : ℕ → Fin 4 → ℕ) (B : ℕ → Fin 3 → ℚ)
    (P : ℕ) (m it : ℤ) (hm : 1 ≤ m) :
    ∀ (fuel : ℕ) (i : ℤ) (xc : XC), numBatches m (it - i) ≤ fuel →
      stepLoopF N A B P m it fuel i xc
        = some ((batchStep N A B P m.toNat)^[numBatches m (it - i)] xc)
  | 0, i, xc, hfuel => by
    have hle : it - i ≤ 0 := by
      by_contra hpos
      push_neg at hpos
      have := numBatches_pos m (it - i) hm hpos
      omega
    rw [stepLoopF, if_neg (by omega), numBatches_eq_zero m (it - i) hle]
    simp
  | fuel + 1, i, xc, hfuel => by
    by_cases hi : i < it
    · rw [stepLoopF, if_pos hi]
      have hd : 0 < it - i := by omega
      have hsucc := numBatches_succ m (it - i) hm hd
      have harg : it - (i + m) = it - i - m := by ring
      have hrec := stepLoopF_eq_iterate N A B P m it hm fuel (i + m)
        (batchStep N A B P m.toNat xc) (by rw [harg]; omega)
      rw [hrec, harg, hsucc, Function.iterate_succ_apply]
    · rw [stepLoopF, if_neg hi, numBatches_eq_zero m (it - i) (by omega)]
      simp

/-- With a positive batch interval, `step` returns its closed form. -/
theorem step_eq_some (P : ℕ) (m it : ℤ) (s : Equ) (hm : 1 ≤ m) :
    step P m it s = some (stepTotal P m it s) := by
  have hfuel : numBatches m (it - 0) ≤ it.toNat + 1 := by
    rw [sub_zero]
    have := numBatches_le_toNat m it hm
    omega
  rw [step, stepLoopF_eq_iterate s.N s.A s.B P m it hm (it.toNat + 1) 0
    ⟨s.X, fun _ => 0⟩ hfuel]
  simp [stepTotal]

/-- With a non-positive iteration count the guard fails immediately, for every
batch interval: `step` still returns (its closed form with zero batches). -/
theorem step_nonpos_eq (P : ℕ) (m it : ℤ) (s : Equ) (h : it ≤ 0) :
    step P m it s = some (stepTotal P m it s) := by
  have ht : it.toNat = 0 := by omega
  rw [step, ht, stepLoopF, if_neg (by omega : ¬ (0 : ℤ) < it)]
  simp [stepTotal, numBatches_eq_zero m it h]

/-- With a non-positive batch interval and the loop counter still below the
iteration count, the outer loop never exits, whatever the fuel. -/
theorem stepLoopF_nonpos_interval (N : ℕ) (A : ℕ → Fin 4 → ℕ) (B : ℕ → Fin 3 → ℚ)
    (P : ℕ) (m it : ℤ) (hm : m ≤ 0) :
    ∀ (fuel : ℕ) (i : ℤ) (xc : XC), i < it → stepLoopF N A B P m it fuel i xc = none
  | 0, i, xc, hi => by rw [stepLoopF, if_pos hi]
  | fuel + 1, i, xc, hi => by
    rw [stepLoopF, if_pos hi]
    exact stepLoopF_nonpos_interval N A B P m it hm fuel (i + m) _ (by omega)

/-! ## Error accumulator and output clamping -/

theorem range_one_sum (f : ℕ → ℚ) :
    ∀ n, ((List.range' 1 n).map f).sum = ∑ i ∈ Finset.Ico 1 (n + 1), f i
  | 0 => by simp
  | n + 1 => by
    rw [List.range'_concat, List.map_append, List.sum_append, range_one_sum f n,
      Finset.sum_Ico_succ_top (by omega : 1 ≤ n + 1)]
    simp [add_comm]

theorem calc_error_eq (N : ℕ) (A : ℕ → Fin 4 → ℕ) (B : ℕ → Fin 3 → ℚ)
    (X : ℕ → Fin 3 → ℚ) (c : Fin 3) :
    calc_error N A B X c = ∑ i ∈ Finset.Ico 1 N, tmpErr A B X i c := by
  cases N with
  | zero => simp [calc_error]
  | succ n => rw [calc_error, show n + 1 - 1 = n from rfl, range_one_sum]

theorem clampChan_le (x : ℚ) : clampChan x ≤ 255 := by
  rw [clampChan]
  split_ifs with h1 h2
  · omega
  · omega
  · have hx : x ≤ 255 := le_of_not_lt h2
    have hfl : Rat.floor x ≤ 255 := by
      by_contra hc
      push_neg at hc
      have h256 : ((256 : ℤ) : ℚ) ≤ x := Rat.le_floor.mp (by omega)
      have : (256 : ℚ) ≤ x := by push_cast at h256; exact h256
      linarith
    omega

/-! ## Partition / labeling -/

theorem partitionAux_length (mask : ℕ → ℤ) :
    ∀ (r p cnt : ℕ), (partitionAux mask p r cnt).length = r
  | 0, _, _ => rfl
  | r + 1, p, cnt => by
    rw [partitionAux]
    split <;> simp [partitionAux_length mask r]

theorem partitionAux_filter (mask : ℕ → ℤ) :
    ∀ (r p cnt : ℕ),
      (partitionAux mask p r cnt).filter (fun x => x != 0)
        = List.range' (cnt + 1) (countPos mask p r)
  | 0, p, cnt => by simp [partitionAux, countPos]
  | r + 1, p, cnt => by
    rw [partitionAux, countPos]
    by_cases h : 0 < mask p
    · rw [if_pos h, if_pos h,
        show (1 : ℕ) + countPos mask (p + 1) r = countPos mask (p + 1) r + 1 from by
          omega,
        List.range'_succ]
      simp [List.filter_cons, partitionAux_filter mask r (p + 1) (cnt + 1)]
    · rw [if_neg h, if_neg h,
        show (0 : ℕ) + countPos mask (p + 1) r = countPos mask (p + 1) r from by omega]
      simp [List.filter_cons, partitionAux_filter mask r (p + 1) cnt]

theorem partitionAux_getElem (mask : ℕ → ℤ) :
    ∀ (r p cnt q : ℕ), q < r →
      (partitionAux mask p r cnt)[q]?
        = some (if 0 < mask (p + q) then cnt + countPos mask p (q + 1) else 0)
  | 0, _, _, q, hq => absurd hq (Nat.not_lt_zero q)
  | r + 1, p, cnt, q, hq => by
    rw [partitionAux]
    by_cases h : 0 < mask p
    · rw [if_pos h]
      cases q with
      | zero => simp [countPos, h]
      | succ q' =>
        rw [List.getElem?_cons_succ,
          partitionAux_getElem mask r (p + 1) (cnt + 1) q' (by omega),
          show p + 1 + q' = p + (q' + 1) from by omega]
        congr 1
        rw [show countPos mask p (q' + 1 + 1)
            = (if 0 < mask p then 1 else 0) + countPos mask (p + 1) (q' + 1) from rfl,
          if_pos h]
        split_ifs <;> omega
    · rw [if_neg h]
      cases q with
      | zero => simp [countPos, h]
      | succ q' =>
        rw [List.getElem?_cons_succ,
          partitionAux_getElem mask r (p + 1) cnt q' (by omega),
          show p + 1 + q' = p + (q' + 1) from by omega]
        congr 1
        rw [show countPos mask p (q' + 1 + 1)
            = (if 0 < mask p then 1 else 0) + countPos mask (p + 1) (q' + 1) from rfl,
          if_neg h]
        split_ifs <;> omega

theorem ceil_mul_bounds (n mN : ℕ) (hn : 1 ≤ n) (hmN : 1 ≤ mN) :
    n ≤ ((n + mN - 1) / mN) * mN ∧ ((n + mN - 1) / mN) * mN < n + mN := by
  have hdm := Nat.div_add_mod (n + mN - 1) mN
  have hr : (n + mN - 1) % mN < mN := Nat.mod_lt _ (by omega)
  have hcomm : ((n + mN - 1) / mN) * mN = mN * ((n + mN - 1) / mN) :=
    Nat.mul_comm _ _
  rw [hcomm]
  generalize mN * ((n + mN - 1) / mN) = t at hdm ⊢
  generalize (n + mN - 1) % mN = r at hdm hr
  omega

/-! ## Claim theorems -/

/-- Claim C1 counterexample: the claim "the anchor's channel values are never
modified by `step`, for every equation system" is false.  On the concrete
system `eqAnchor` (whose anchor constant term is 4), worker 0's range starts
at `offset[0] = 0`, so `update_equation(0)` runs and changes `X[0]` from 0
to 1. -/
theorem anchor_modified_cex :
    step 1 1 1 eqAnchor = some (stepTotal 1 1 1 eqAnchor) ∧
    (stepTotal 1 1 1 eqAnchor).state.X 0 0 ≠ eqAnchor.X 0 0 := by
  refine ⟨step_eq_some 1 1 1 eqAnchor (by norm_num), ?_⟩
  norm_num [stepTotal, mkResult, numBatches, batchStep, mergeWorkers, writeRange,
    workerLocal, passRange, update_equation, offset, eqAnchor]

/-- Claim C1 (amended): `update_equation` is in fact applied to the anchor by
worker 0, but whenever the anchor's equation row is the fixed point the reset
step builds — all four adjacency entries 0 and zero constant terms — the
anchor's three channel values are unchanged by any sequence of `step` calls
with any iteration counts. -/
theorem anchor_preserved (P : ℕ) (m : ℤ) (s : Equ) (its : List ℤ) (c : Fin 3)
    (hA : ∀ k, s.A 0 k = 0) (hB : ∀ c, s.B 0 c = 0) :
    (its.foldl (fun t it => (stepTotal P m it t).state) s).X 0 c = s.X 0 c := by
  induction its generalizing s with
  | nil => rfl
  | cons it rest ih =>
    rw [List.foldl_cons,
      ih ((stepTotal P m it s).state)
        (show ∀ k, (stepTotal P m it s).state.A 0 k = 0 from hA)
        (show ∀ c, (stepTotal P m it s).state.B 0 c = 0 from hB)]
    exact stepTotal_X_anchor P m it s c hA hB

/-- Witness for the amended claim C1: two consecutive `step` calls on the
fixed-point system `eqFix` leave the anchor's channel 0 unchanged. -/
theorem anchor_preserved_witness :
    (([1, 2] : List ℤ).foldl (fun t it => (stepTotal 1 1 it t).state) eqFix).X 0 0
      = eqFix.X 0 0 :=
  anchor_preserved 1 1 eqFix [1, 2] 0 (by decide) (by decide)

/-- Claim C2 (code bug): `step` performs no validation at all.  With batch
interval 0 and iteration count 1 the outer loop never terminates — for every
amount of fuel the loop is still running (`none`), so in particular `step`
itself yields no result; nothing is rejected before computation starts. -/
theorem step_no_validation (fuel N : ℕ) (A : ℕ → Fin 4 → ℕ) (B : ℕ → Fin 3 → ℚ)
    (P : ℕ) (xc : XC) (s : Equ) :
    stepLoopF N A B P 0 1 fuel 0 xc = none ∧ step P 0 1 s = none := by
  constructor
  · exact stepLoopF_nonpos_interval N A B P 0 1 (le_refl 0) fuel 0 xc (by norm_num)
  · rw [step, stepLoopF_nonpos_interval s.N s.A s.B P 0 1 (le_refl 0) _ 0 _
      (by norm_num)]

/-- Claim C3 counterexample: on `eqChain` (single worker, one pass), the value
the pass writes for variable 2 is 1, whereas the kernel formula evaluated on
the solution vector of the last synchronization boundary (the claimed Jacobi
read) gives 0: variable 2's update reads variable 1's value written earlier
in the same pass. -/
theorem jacobi_claim_cex :
    step 1 1 1 eqChain = some (stepTotal 1 1 1 eqChain) ∧
    (stepTotal 1 1 1 eqChain).state.X 2 0 = 1 ∧
    (eqChain.B 2 0 + eqChain.X (eqChain.A 2 0) 0 + eqChain.X (eqChain.A 2 1) 0
      + eqChain.X (eqChain.A 2 2) 0 + eqChain.X (eqChain.A 2 3) 0) / 4 = 0 := by
  refine ⟨step_eq_some 1 1 1 eqChain (by norm_num), ?_, by norm_num [eqChain]⟩
  norm_num [stepTotal, mkResult, numBatches, batchStep, mergeWorkers, writeRange,
    workerLocal, passRange, update_equation, offset, eqChain]

/-- Witness for the amended claim C3 at `lo = 0`, `len = 3`, `i = 2` on the
concrete system `eqChain`. -/
theorem passRange_reads_witness :
    (passRange eqChain.A eqChain.B 0 3 (XC.mk eqChain.X fun _ => 0)).X 2 0 =
      (eqChain.B 2 0
        + (passRange eqChain.A eqChain.B 0 2 (XC.mk eqChain.X fun _ => 0)).X
            (eqChain.A 2 0) 0
        + (passRange eqChain.A eqChain.B 0 2 (XC.mk eqChain.X fun _ => 0)).X
            (eqChain.A 2 1) 0
        + (passRange eqChain.A eqChain.B 0 2 (XC.mk eqChain.X fun _ => 0)).X
            (eqChain.A 2 2) 0
        + (passRange eqChain.A eqChain.B 0 2 (XC.mk eqChain.X fun _ => 0)).X
            (eqChain.A 2 3) 0) / 4 :=
  passRange_reads eqChain.A eqChain.B 0 3 2 (XC.mk eqChain.X fun _ => 0) 0
    (by norm_num) (by norm_num)

/-- Claim C4: for a positive iteration count, positive batch interval and at
least one worker, `step` applies the relaxation kernel to every variable
`k < N` exactly `⌈iterations / min_interval⌉ * min_interval` times: at least
`iterations` and less than `iterations + min_interval` (rounded up, never
truncated), and always a multiple of the interval. -/
theorem step_pass_count (P : ℕ) (m it : ℤ) (s : Equ) (k : ℕ)
    (hP : 1 ≤ P) (hm : 1 ≤ m) (hit : 1 ≤ it) (hk : k < s.N) :
    step P m it s = some (stepTotal P m it s) ∧
    (stepTotal P m it s).passes k = ((it.toNat + m.toNat - 1) / m.toNat) * m.toNat ∧
    it.toNat ≤ (stepTotal P m it s).passes k ∧
    (stepTotal P m it s).passes k < it.toNat + m.toNat ∧
    m.toNat ∣ (stepTotal P m it s).passes k := by
  have hpass : (stepTotal P m it s).passes k = numBatches m it * m.toNat := by
    have h := batchStep_iter_cnt s.N s.A s.B P m.toNat hP (numBatches m it)
      ⟨s.X, fun _ => 0⟩ k hk
    simpa [stepTotal, mkResult] using h
  have hnb : numBatches m it = (it.toNat + m.toNat - 1) / m.toNat := by
    rw [numBatches, if_neg (by omega)]
  have hbounds := ceil_mul_bounds it.toNat m.toNat (by omega) (by omega)
  refine ⟨step_eq_some P m it s hm, ?_, ?_, ?_, ?_⟩
  · rw [hpass, hnb]
  · rw [hpass, hnb]
    exact hbounds.1
  · rw [hpass, hnb]
    exact hbounds.2
  · rw [hpass]
    exact dvd_mul_left m.toNat (numBatches m it)

/-- Witness for claim C4: `iterations = 3`, `min_interval = 2` executes 4
kernel applications on every variable of `eqFix`. -/
theorem step_pass_count_witness :
    step 1 2 3 eqFix = some (stepTotal 1 2 3 eqFix) ∧
    (stepTotal 1 2 3 eqFix).passes 1
      = (((3 : ℤ).toNat + (2 : ℤ).toNat - 1) / (2 : ℤ).toNat) * (2 : ℤ).toNat ∧
    (3 : ℤ).toNat ≤ (stepTotal 1 2 3 eqFix).passes 1 ∧
    (stepTotal 1 2 3 eqFix).passes 1 < (3 : ℤ).toNat + (2 : ℤ).toNat ∧
    (2 : ℤ).toNat ∣ (stepTotal 1 2 3 eqFix).passes 1 :=
  step_pass_count 1 2 3 eqFix 1 (by norm_num) (by norm_num) (by norm_num) (by decide)

/-- Claim C5: on an `n × m` mask, `partition` returns a fresh array of
`n * m` labels in which the `k` positive cells receive the ids `1..k`, each
exactly once, in row-major scan order (the non-zero labels read in order are
exactly `1, …, k`, and a positive cell at position `p` gets the number of
positive cells up to and including `p`), every non-positive cell receives 0,
and a second call on the same mask yields the identical output. -/
theorem partition_spec (mask : ℕ → ℤ) (n m p : ℕ) (hp : p < n * m) :
    (partition mask n m).length = n * m ∧
    (partition mask n m).filter (fun x => x != 0)
      = List.range' 1 (countPos mask 0 (n * m)) ∧
    (mask p ≤ 0 → (partition mask n m)[p]? = some 0) ∧
    (0 < mask p → (partition mask n m)[p]? = some (countPos mask 0 (p + 1))) ∧
    partition mask n m = partition mask n m := by
  refine ⟨partitionAux_length mask (n * m) 0 0, ?_, ?_, ?_, rfl⟩
  · exact partitionAux_filter mask (n * m) 0 0
  · intro hm0
    rw [partition, partitionAux_getElem mask (n * m) 0 0 p hp]
    simp [show ¬ 0 < mask p from by omega]
  · intro hpos
    rw [partition, partitionAux_getElem mask (n * m) 0 0 p hp]
    simp [hpos]

/-- Witness for claim C5 on the concrete mask `mask0` (2 positive cells). -/
theorem partition_spec_witness :
    (partition mask0 2 2).length = 2 * 2 ∧
    (partition mask0 2 2).filter (fun x => x != 0)
      = List.range' 1 (countPos mask0 0 (2 * 2)) ∧
    (partition mask0 2 2)[1]? = some (countPos mask0 0 2) ∧
    (partition mask0 2 2)[0]? = some 0 := by
  have h1 := partition_spec mask0 2 2 1 (by decide)
  have h0 := partition_spec mask0 2 2 0 (by decide)
  exact ⟨h1.1, h1.2.1, h1.2.2.2.1 (by decide), h0.2.2.1 (by decide)⟩

/-- Claim C6: for every `N ≥ 0` and worker count `P ≥ 1` the offsets satisfy
`offset[0] = 0`, `offset[P] = N`, every consecutive difference is `N / P` or
`N / P + 1`, a difference is the larger size exactly for the ranks below
`N mod P` (the lowest-ranked workers), there are exactly `N mod P` such
ranges, and the offsets are monotone — so the ranges partition `[0, N)`. -/
theorem work_partitioner_spec (N P r : ℕ) (hP : 1 ≤ P) (hr : r < P) :
    offset N P 0 = 0 ∧
    offset N P P = N ∧
    (offset N P (r + 1) - offset N P r = N / P ∨
      offset N P (r + 1) - offset N P r = N / P + 1) ∧
    ((offset N P (r + 1) - offset N P r = N / P + 1) ↔ r < N % P) ∧
    ((Finset.range P).filter
        (fun j => offset N P (j + 1) - offset N P j = N / P + 1)).card = N % P ∧
    offset N P r ≤ offset N P (r + 1) := by
  have hiff : ∀ j, (offset N P (j + 1) - offset N P j = N / P + 1) ↔ j < N % P := by
    intro j
    rw [offset_succ_sub]
    generalize N / P = q
    generalize N % P = k
    split <;> omega
  have hmod : N % P < P := Nat.mod_lt _ hP
  have hfilter : (Finset.range P).filter
      (fun j => offset N P (j + 1) - offset N P j = N / P + 1)
      = Finset.range (N % P) := by
    ext j
    simp only [Finset.mem_filter, Finset.mem_range, hiff j]
    omega
  refine ⟨rfl, offset_total N P hP, ?_, hiff r, ?_, offset_mono_succ N P r⟩
  · rw [offset_succ_sub]
    split
    · exact Or.inr rfl
    · exact Or.inl (Nat.add_zero _)
  · rw [hfilter, Finset.card_range]

/-- Witness for claim C6 at `N = 7`, `P = 3`, rank `r = 1`. -/
theorem work_partitioner_spec_witness :
    offset 7 3 0 = 0 ∧
    offset 7 3 3 = 7 ∧
    (offset 7 3 (1 + 1) - offset 7 3 1 = 7 / 3 ∨
      offset 7 3 (1 + 1) - offset 7 3 1 = 7 / 3 + 1) ∧
    ((offset 7 3 (1 + 1) - offset 7 3 1 = 7 / 3 + 1) ↔ 1 < 7 % 3) ∧
    ((Finset.range 3).filter
        (fun j => offset 7 3 (j + 1) - offset 7 3 j = 7 / 3 + 1)).card = 7 % 3 ∧
    offset 7 3 1 ≤ offset 7 3 (1 + 1) :=
  work_partitioner_spec 7 3 1 (by decide) (by decide)

/-- Claim C7: the error vector returned by `step` equals, per channel, the sum
over the non-anchor ids `1..N-1` of `|4*X[i] - (sum of X over i's 4 neighbor
ids) - B[i]|` evaluated on the solution state at the end of that call, and it
is recomputed from scratch: the value returned is independent of whatever the
error accumulator held before the call. -/
theorem step_error_spec (P : ℕ) (m it : ℤ) (s : Equ) (c : Fin 3)
    (e₀ : Fin 3 → ℚ) (hm : 1 ≤ m) :
    step P m it s = some (stepTotal P m it s) ∧
    (stepTotal P m it s).err c
      = ∑ i ∈ Finset.Ico 1 s.N,
          |4 * (stepTotal P m it s).state.X i c
            - ((stepTotal P m it s).state.X (s.A i 0) c
              + (stepTotal P m it s).state.X (s.A i 1) c
              + (stepTotal P m it s).state.X (s.A i 2) c
              + (stepTotal P m it s).state.X (s.A i 3) c)
            - s.B i c| ∧
    (stepTotal P m it { s with err := e₀ }).err c = (stepTotal P m it s).err c := by
  refine ⟨step_eq_some P m it s hm, ?_, rfl⟩
  have h : (stepTotal P m it s).err c
      = calc_error s.N s.A s.B ((stepTotal P m it s).state.X) c := rfl
  rw [h, calc_error_eq]
  rfl

/-- Witness for claim C7 on `eqAnchor` with a dirty error accumulator. -/
theorem step_error_spec_witness :
    step 1 1 1 eqAnchor = some (stepTotal 1 1 1 eqAnchor) ∧
    (stepTotal 1 1 1 eqAnchor).err 0
      = ∑ i ∈ Finset.Ico 1 eqAnchor.N,
          |4 * (stepTotal 1 1 1 eqAnchor).state.X i 0
            - ((stepTotal 1 1 1 eqAnchor).state.X (eqAnchor.A i 0) 0
              + (stepTotal 1 1 1 eqAnchor).state.X (eqAnchor.A i 1) 0
              + (stepTotal 1 1 1 eqAnchor).state.X (eqAnchor.A i 2) 0
              + (stepTotal 1 1 1 eqAnchor).state.X (eqAnchor.A i 3) 0)
            - eqAnchor.B i 0| ∧
    (stepTotal 1 1 1 { eqAnchor with err := fun _ => 5 }).err 0
      = (stepTotal 1 1 1 eqAnchor).err 0 :=
  step_error_spec 1 1 1 eqAnchor 0 (fun _ => 5) (by norm_num)

/-- Claim C8: every channel of the output image returned by `step` is the
clamp of the corresponding channel of the final solution into `[0, 255]`
(so every element lies in that range, the lower bound holding by the `ℕ`
codomain), while the solution vector itself is returned unclamped in the
state. -/
theorem step_clamp_spec (P : ℕ) (m it : ℤ) (s : Equ) (i : ℕ) (c : Fin 3)
    (hm : 1 ≤ m) :
    step P m it s = some (stepTotal P m it s) ∧
    (stepTotal P m it s).img i c = clampChan ((stepTotal P m it s).state.X i c) ∧
    (stepTotal P m it s).img i c ≤ 255 :=
  ⟨step_eq_some P m it s hm, rfl, clampChan_le _⟩

/-- Witness for claim C8 on `eqHot`: the returned copy of channel 0 of
variable 1 is clamped to 255 while the internal solution still holds 300. -/
theorem step_clamp_spec_witness :
    (step 1 1 0 eqHot = some (stepTotal 1 1 0 eqHot) ∧
      (stepTotal 1 1 0 eqHot).img 1 0
        = clampChan ((stepTotal 1 1 0 eqHot).state.X 1 0) ∧
      (stepTotal 1 1 0 eqHot).img 1 0 ≤ 255) ∧
    (stepTotal 1 1 0 eqHot).state.X 1 0 = 300 ∧
    (stepTotal 1 1 0 eqHot).img 1 0 = 255 := by
  refine ⟨step_clamp_spec 1 1 0 eqHot 1 0 (by norm_num), ?_, ?_⟩
  · norm_num [stepTotal, mkResult, numBatches, eqHot]
  · norm_num [stepTotal, mkResult, numBatches, eqHot, clampChan]

/-- Claim C9: the relaxation kernel mutates only the solution vector — the
update of variable `i` leaves every other variable's channels unchanged — and
after a `step` call the fields `N`, `A` (adjacency) and `B` (constant terms)
hold exactly the values they held on entry. -/
theorem kernel_frame_spec (A : ℕ → Fin 4 → ℕ) (B : ℕ → Fin 3 → ℚ) (xc : XC)
    (i j : ℕ) (c : Fin 3) (P : ℕ) (m it : ℤ) (s : Equ)
    (hj : j ≠ i) (hm : 1 ≤ m) :
    (update_equation A B xc i).X j c = xc.X j c ∧
    step P m it s = some (stepTotal P m it s) ∧
    (stepTotal P m it s).state.N = s.N ∧
    (stepTotal P m it s).state.A = s.A ∧
    (stepTotal P m it s).state.B = s.B :=
  ⟨update_X_ne A B xc i j c hj, step_eq_some P m it s hm, rfl, rfl, rfl⟩

/-- Witness for claim C9 on `eqAnchor`: updating variable 0 leaves variable
1's channel 0 unchanged, and `step` preserves `N`, `A`, `B`. -/
theorem kernel_frame_spec_witness :
    (update_equation eqAnchor.A eqAnchor.B (XC.mk eqAnchor.X fun _ => 0) 0).X 1 0
      = (XC.mk eqAnchor.X fun _ => 0).X 1 0 ∧
    step 1 1 1 eqAnchor = some (stepTotal 1 1 1 eqAnchor) ∧
    (stepTotal 1 1 1 eqAnchor).state.N = eqAnchor.N ∧
    (stepTotal 1 1 1 eqAnchor).state.A = eqAnchor.A ∧
    (stepTotal 1 1 1 eqAnchor).state.B = eqAnchor.B :=
  kernel_frame_spec eqAnchor.A eqAnchor.B (XC.mk eqAnchor.X fun _ => 0) 0 1 0
    1 1 1 eqAnchor (by decide) (by norm_num)

/-- Claim C10: with a non-positive iteration count the guard of the outer
loop fails immediately, so `step` runs zero relaxation passes (the solution
vector and the ghost pass counts are untouched) but is not rejected: it still
recomputes the error vector from the current solution and returns its clamped
copy as the output image. -/
theorem step_nonpos_spec (P : ℕ) (m it : ℤ) (s : Equ) (k i : ℕ) (c : Fin 3)
    (h : it ≤ 0) :
    step P m it s = some (stepTotal P m it s) ∧
    (stepTotal P m it s).state.X = s.X ∧
    (stepTotal P m it s).passes k = 0 ∧
    (stepTotal P m it s).err c = calc_error s.N s.A s.B s.X c ∧
    (stepTotal P m it s).img i c = clampChan (s.X i c) := by
  have hz : numBatches m it = 0 := numBatches_eq_zero m it h
  refine ⟨step_nonpos_eq P m it s h, ?_, ?_, ?_, ?_⟩ <;>
    simp [stepTotal, mkResult, hz]

/-- Witness for claim C10 at iteration count `-1` (and batch interval 0). -/
theorem step_nonpos_spec_witness :
    step 1 0 (-1) eqHot = some (stepTotal 1 0 (-1) eqHot) ∧
    (stepTotal 1 0 (-1) eqHot).state.X = eqHot.X ∧
    (stepTotal 1 0 (-1) eqHot).passes 0 = 0 ∧
    (stepTotal 1 0 (-1) eqHot).err 0 = calc_error eqHot.N eqHot.A eqHot.B eqHot.X 0 ∧
    (stepTotal 1 0 (-1) eqHot).img 1 0 = clampChan (eqHot.X 1 0) :=
  step_nonpos_spec 1 0 (-1) eqHot 0 1 0 (by norm_num)
